import Mathlib

/-!
Shallow embedding of the nftables rule-merging optimizer (src/optimize.c).

Statements and expressions are modelled as inductive types carrying exactly
the fields that `__stmt_type_eq` and the rewrite functions inspect.  Pointer
comparisons of the C source (payload descriptors, templates) become `Nat`
identity comparisons; `mpz` values become `Int`; the statement matrix stores
the position of a statement inside its rule, which models the C pointer into
the rule's statement list.
-/

namespace NftOptimize

/-- Expressions, restricted to the fields the optimizer reads.  `value`
carries both the numeric content (`mpz` value) and the identifier string,
since the C `struct expr` exposes both on an `EXPR_VALUE` node.  `other`
stands for every remaining `etype`, with `tag` preserving which one. -/
inductive Expr where
  | value (num : Int) (ident : String)
  | payload (desc tmpl : Nat)
  | exthdr (desc tmpl : Nat)
  | meta (key base : Nat)
  | ct (key base : Nat) (direction : Int) (nfproto : Nat)
  | rt (key : Nat)
  | socket (key level : Nat)
  | setE (anonymous : Bool) (elems : List Expr)
  | setElem (elem : Expr)
  | concat (elems : List Expr)
  | other (tag : Nat)

/-- The `etype` discriminant of an expression (`expr->etype` in the source). -/
def etype : Expr → Nat
  | .value _ _ => 1
  | .payload _ _ => 2
  | .exthdr _ _ => 3
  | .meta _ _ => 4
  | .ct _ _ _ _ => 5
  | .rt _ => 6
  | .socket _ _ => 7
  | .setE _ _ => 8
  | .setElem _ => 9
  | .concat _ => 10
  | .other t => 11 + t

/-- The `EXPR_VALUE` discriminant. -/
def EXPR_VALUE : Nat := 1

/-- Field `expr->identifier`, meaningful on value expressions. -/
def expr_identifier : Expr → String
  | .value _ s => s
  | _ => ""

/-- Field `expr->value` (the mpz payload), meaningful on value expressions. -/
def expr_num : Expr → Int
  | .value n _ => n
  | _ => 0

/-- Statements, restricted to the fields the optimizer reads.  `other`
stands for every statement kind outside the handled set (NAT, meter, ...),
with `tag` preserving the `ops->type` discriminant. -/
inductive Stmt where
  | expression (left right : Expr)
  | counter
  | notrack
  | verdict (vtag : Int) (chain : Option Expr)
  | limit (rate unit burst ltype flags : Nat)
  | log (snaplen group qthreshold level logflags flags : Nat) (pfx : Expr)
  | reject (rexpr : Option Expr) (family rtype icmp_code : Nat)
  | other (tag : Nat)

/-- The `ops->type` discriminant of a statement. -/
def stype : Stmt → Nat
  | .expression _ _ => 0
  | .counter => 1
  | .notrack => 2
  | .verdict _ _ => 3
  | .limit _ _ _ _ _ => 4
  | .log _ _ _ _ _ _ _ => 5
  | .reject _ _ _ _ => 6
  | .other t => 7 + t

/-- Predicate `__stmt_type_eq` from src/optimize.c lines 36-147: same statement kind,
then kind-specific comparison.  Expression statements compare the left-hand
selector identity fields only; the right-hand side is never inspected. -/
def __stmt_type_eq (stmt_a stmt_b : Stmt) : Bool :=
  if stype stmt_a != stype stmt_b then false
  else
    match stmt_a, stmt_b with
    | .expression la _, .expression lb _ =>
      if etype la != etype lb then false
      else
        match la, lb with
        | .payload d1 t1, .payload d2 t2 =>
          if d1 != d2 then false
          else if t1 != t2 then false
          else true
        | .exthdr d1 t1, .exthdr d2 t2 =>
          if d1 != d2 then false
          else if t1 != t2 then false
          else true
        | .meta k1 b1, .meta k2 b2 =>
          if k1 != k2 then false
          else if b1 != b2 then false
          else true
        | .ct k1 b1 d1 p1, .ct k2 b2 d2 p2 =>
          if k1 != k2 then false
          else if b1 != b2 then false
          else if d1 != d2 then false
          else if p1 != p2 then false
          else true
        | .rt k1, .rt k2 =>
          if k1 != k2 then false
          else true
        | .socket k1 l1, .socket k2 l2 =>
          if k1 != k2 then false
          else if l1 != l2 then false
          else true
        | _, _ => false
    | .counter, .counter => true
    | .notrack, .notrack => true
    | .verdict v1 c1, .verdict v2 c2 =>
      if v1 != v2 then false
      else
        match c1, c2 with
        | some e1, some e2 =>
          if etype e1 != etype e2 then false
          else if etype e1 == EXPR_VALUE &&
                  expr_identifier e1 != expr_identifier e2 then false
          else true
        | none, none => true
        | _, _ => false
    | .limit r1 u1 b1 t1 f1, .limit r2 u2 b2 t2 f2 =>
      if r1 != r2 || u1 != u2 || b1 != b2 || t1 != t2 || f1 != f2 then false
      else true
    | .log s1 g1 q1 l1 lf1 f1 p1, .log s2 g2 q2 l2 lf2 f2 p2 =>
      if s1 != s2 || g1 != g2 || q1 != q2 || l1 != l2 || lf1 != lf2 ||
         f1 != f2 || etype p1 != EXPR_VALUE || etype p2 != EXPR_VALUE ||
         expr_num p1 != expr_num p2 then false
      else true
    | .reject e1 f1 t1 c1, .reject e2 f2 t2 c2 =>
      if e1.isSome || e2.isSome then false
      else if f1 != f2 || t1 != t2 || c1 != c2 then false
      else true
    | _, _ => false

/-- Predicate `stmt_type_eq` from src/optimize.c lines 149-159: extension of
`__stmt_type_eq` to possibly-empty statement slots. -/
def stmt_type_eq : Option Stmt → Option Stmt → Bool
  | none, none => true
  | none, some _ => false
  | some _, none => false
  | some a, some b => __stmt_type_eq a b

/-- A rule is its ordered list of statements (`rule->stmts`). -/
abbrev Rule := List Stmt

/-- Constant `MAX_STMTS` from src/optimize.c line 25. -/
def MAX_STMTS : Nat := 32

/-- The clone stored in the selector registry by `rule_collect_stmts`
(lines 184-202): expression and verdict statements share their expression,
limit and log copy their fields, counter and notrack carry nothing, and
every other kind — including reject, which falls into the `default` branch —
keeps only its `ops` and gets zeroed fields from `stmt_alloc`. -/
def stmt_clone : Stmt → Stmt
  | .expression l r => .expression l r
  | .counter => .counter
  | .notrack => .notrack
  | .verdict v c => .verdict v c
  | .limit r u b t f => .limit r u b t f
  | .log s g q l lf f p => .log s g q l lf f p
  | .reject _ _ _ _ => .reject none 0 0 0
  | .other t => .other t

/-- Function `stmt_type_find` (lines 161-171): linear scan of the registry. -/
def stmt_type_find (reg : List Stmt) (stmt : Stmt) : Bool :=
  reg.any (fun k => __stmt_type_eq stmt k)

/-- Function `rule_collect_stmts` (lines 173-210): append a clone for each statement
without an equivalent registry entry; fail once the registry holds
`MAX_STMTS` entries.  Returns the extended registry, or `none` on overflow. -/
def rule_collect_stmts (reg : List Stmt) : List Stmt → Option (List Stmt)
  | [] => some reg
  | stmt :: rest =>
    if stmt_type_find reg stmt then rule_collect_stmts reg rest
    else
      let reg' := reg ++ [stmt_clone stmt]
      if MAX_STMTS ≤ reg'.length then none
      else rule_collect_stmts reg' rest

/-- Step 1 of `chain_optimize` (lines 400-406): collect over every rule. -/
def chain_collect (reg : List Stmt) : List Rule → Option (List Stmt)
  | [] => some reg
  | rule :: rest =>
    match rule_collect_stmts reg rule with
    | none => none
    | some reg' => chain_collect reg' rest

/-- The registry produced when the `MAX_STMTS` cap is ignored; used to relate
the capped collection to the number of keys it would accumulate. -/
def rule_collect_uncapped (reg : List Stmt) : List Stmt → List Stmt
  | [] => reg
  | stmt :: rest =>
    if stmt_type_find reg stmt then rule_collect_uncapped reg rest
    else rule_collect_uncapped (reg ++ [stmt_clone stmt]) rest

/-- Uncapped collection over every rule of a chain. -/
def chain_collect_uncapped (reg : List Stmt) : List Rule → List Stmt
  | [] => reg
  | rule :: rest => chain_collect_uncapped (rule_collect_uncapped reg rule) rest

/-- Function `cmd_stmt_find_in_stmt_matrix` (lines 212-222), as the index search:
first registry index whose key is `__stmt_type_eq` to the statement. -/
def stmt_find_idx (stmt : Stmt) : List Stmt → Nat → Option Nat
  | [], _ => none
  | k :: rest, i =>
    if __stmt_type_eq stmt k then some i else stmt_find_idx stmt rest (i + 1)

/-- Function `cmd_stmt_find_in_stmt_matrix` (lines 212-222): on a miss the source
comment says "should not ever happen" and column 0 is returned. -/
def cmd_stmt_find_in_stmt_matrix (reg : List Stmt) (stmt : Stmt) : Nat :=
  (stmt_find_idx stmt reg 0).getD 0

/-- Function `rule_build_stmt_matrix_stmts` (lines 224-235), one matrix row: each cell
holds the position (inside the rule) of the statement assigned to it, which
models the C pointer into the rule; later statements overwrite earlier ones
landing in the same column. -/
def rule_build_row (reg : List Stmt) (rule : Rule) : List (Option Nat) :=
  rule.enum.foldl
    (fun row ps => row.set (cmd_stmt_find_in_stmt_matrix reg ps.2) (some ps.1))
    (List.replicate reg.length none)

/-- The per-chain optimizer context after steps 1 and 2: registry, rules and
statement matrix (`struct optimize_ctx`). -/
structure OptCtx where
  reg : List Stmt
  rules : List Rule
  rows : List (List (Option Nat))

/-- Build the context of a chain from an already-collected registry. -/
def build_ctx (reg : List Stmt) (rules : List Rule) : OptCtx :=
  ⟨reg, rules, rules.map (rule_build_row reg)⟩

/-- The position stored in matrix cell `(i, k)`. -/
def cell_pos (ctx : OptCtx) (i k : Nat) : Option Nat :=
  (ctx.rows.getD i []).getD k none

/-- The statement referenced by matrix cell `(i, k)` (`ctx->stmt_matrix[i][k]`). -/
def cell_stmt (ctx : OptCtx) (i k : Nat) : Option Stmt :=
  match cell_pos ctx i k with
  | none => none
  | some p => (ctx.rules.getD i []).get? p

/-- Function `rules_eq` (lines 376-386): two rows agree on every column. -/
def rules_eq (ctx : OptCtx) (i j : Nat) : Bool :=
  (List.range ctx.reg.length).all
    (fun k => stmt_type_eq (cell_stmt ctx i k) (cell_stmt ctx j k))

/-- The inner loop of step 3 (lines 422-436): starting from candidate row `i`
with cursor `j`, advance `j` while row `j` equals row `i`; returns the first
`j` that breaks the run (or the row count).  Structural recursion on the
remaining fuel `n - j` keeps the definition kernel-executable. -/
def run_end_aux (eq : Nat → Nat → Bool) (i : Nat) : Nat → Nat → Nat
  | 0, j => j
  | fuel + 1, j => if eq i j then run_end_aux eq i fuel (j + 1) else j

/-- First row at or after `j` that is not equal to row `i` (bounded by `n`). -/
def run_end (eq : Nat → Nat → Bool) (n i j : Nat) : Nat :=
  run_end_aux eq i (n - j) j

/-- Step 3 of `chain_optimize` (lines 420-441): emit `(rule_from, num_rules)`
for every maximal adjacent run of equal rows of length at least two, resuming
at the row that broke the run. -/
def scan_runs_aux (eq : Nat → Nat → Bool) (n : Nat) : Nat → Nat → List (Nat × Nat)
  | 0, _ => []
  | fuel + 1, i =>
    if i + 1 < n then
      if i + 2 ≤ run_end eq n i (i + 1) then
        (i, run_end eq n i (i + 1) - i) ::
          scan_runs_aux eq n fuel (run_end eq n i (i + 1))
      else scan_runs_aux eq n fuel (i + 1)
    else []

/-- The merge intervals emitted by step 3 for an `n`-row matrix. -/
def scan_runs (eq : Nat → Nat → Bool) (n : Nat) : List (Nat × Nat) :=
  scan_runs_aux eq n n 0

/-- Step 4's column selection (lines 447-457): the columns of row `i` whose
cell is a present expression statement, in ascending column order. -/
def merge_cols (ctx : OptCtx) (i : Nat) : List Nat :=
  (List.range ctx.reg.length).filter
    (fun m =>
      match cell_stmt ctx i m with
      | some (.expression _ _) => true
      | _ => false)

/-- Accessor for `stmt->expr->left` of an expression statement (junk otherwise; every use
is guarded by the cell holding an expression statement). -/
def stmt_lhs : Stmt → Expr
  | .expression l _ => l
  | _ => .value 0 ""

/-- Accessor for `stmt->expr->right` of an expression statement (junk otherwise). -/
def stmt_rhs : Stmt → Expr
  | .expression _ r => r
  | _ => .value 0 ""

/-- Right-hand side of the statement in cell `(i, c)`. -/
def cell_rhs (ctx : OptCtx) (i c : Nat) : Expr :=
  stmt_rhs ((cell_stmt ctx i c).getD (.other 0))

/-- Left-hand side of the statement in cell `(i, c)`. -/
def cell_lhs (ctx : OptCtx) (i c : Nat) : Expr :=
  stmt_lhs ((cell_stmt ctx i c).getD (.other 0))

/-- Function `merge_stmts` (lines 246-272), acting on the statement list of rule
`f`: the right-hand side of the column-`c` statement becomes an anonymous
set whose elements wrap, in row order `f … t`, each row's column-`c`
right-hand side.  The `assert` of line 254 is checked by the caller. -/
def merge_stmts (ctx : OptCtx) (f t c : Nat) : Rule :=
  let p := (cell_pos ctx f c).getD 0
  let stmts := ctx.rules.getD f []
  match stmts.get? p with
  | some (.expression l r) =>
    let elems :=
      Expr.setElem r ::
        (List.range (t - f)).map (fun d => Expr.setElem (cell_rhs ctx (f + 1 + d) c))
    stmts.set p (.expression l (.setE true elems))
  | _ => stmts

/-- Remove from a statement list the entries at the given positions
(`list_del` applied to each of the tail columns' statements). -/
def remove_positions (stmts : Rule) (pos : List Nat) : Rule :=
  (stmts.enum.filter (fun ps => !pos.contains ps.1)).map (fun ps => ps.2)

/-- Function `merge_concat_stmts` (lines 274-314), acting on the statement list of
rule `f`: the first participating column's statement gets a left-hand
concatenation of all participating left-hand sides and a right-hand
anonymous set of per-row concatenations; the statements of the remaining
participating columns are removed from the rule. -/
def merge_concat_stmts (ctx : OptCtx) (f t : Nat) (cols : List Nat) : Rule :=
  let c0 := cols.headD 0
  let p0 := (cell_pos ctx f c0).getD 0
  let stmts := ctx.rules.getD f []
  let concatL := Expr.concat (cols.map (fun c => cell_lhs ctx f c))
  let setR := Expr.setE true
    ((List.range (t + 1 - f)).map (fun d =>
      Expr.setElem (Expr.concat (cols.map (fun c => cell_rhs ctx (f + d) c)))))
  let stmts' := stmts.set p0 (.expression concatL setR)
  let delPos := cols.tail.map (fun c => (cell_pos ctx f c).getD 0)
  remove_positions stmts' delPos

/-- Whether the assertion at the head of `merge_stmts` (line 254) holds for a
given run: the cell at `(rule_from, stmt[0])` is a present expression
statement (with `stmt[0] = 0` when no column participates). -/
def merge_assert_ok (ctx : OptCtx) (f : Nat) (cols : List Nat) : Bool :=
  match cell_stmt ctx f (cols.headD 0) with
  | some (.expression _ _) => true
  | _ => false

/-- Working state of step 4: each original row is either still present
(carrying its current statement list) or deleted. -/
abbrev RowState := List (Option Rule)

/-- Mark `k` consecutive rows as deleted, starting at row `p`. -/
def delete_rows_aux : RowState → Nat → Nat → RowState
  | cur, _, 0 => cur
  | cur, p, k + 1 => delete_rows_aux (cur.set p none) (p + 1) k

/-- Row retirement of `merge_rules` (lines 365-369): delete rows `f+1 … t`. -/
def delete_rows (cur : RowState) (f t : Nat) : RowState :=
  delete_rows_aux cur (f + 1) (t - f)

/-- The statement list of the head row after `merge_rules`' rewrite (lines
356-360): the multi-selector path when more than one column participates,
the single-selector path otherwise. -/
def merged_rule (ctx : OptCtx) (mg : Nat × Nat) : Rule :=
  if 1 < (merge_cols ctx mg.1).length then
    merge_concat_stmts ctx mg.1 (mg.1 + mg.2 - 1) (merge_cols ctx mg.1)
  else
    merge_stmts ctx mg.1 (mg.1 + mg.2 - 1) ((merge_cols ctx mg.1).headD 0)

/-- Whether the merge avoids the `assert` of `merge_stmts`: the
multi-selector path has no assertion, the single-selector path requires its
head cell to be a present expression statement. -/
def merge_ok (ctx : OptCtx) (mg : Nat × Nat) : Bool :=
  1 < (merge_cols ctx mg.1).length ||
    merge_assert_ok ctx mg.1 (merge_cols ctx mg.1)

/-- One iteration of step 4 (lines 444-461) together with `merge_rules`
(lines 349-374): select the participating columns, rewrite the head row via
the single- or multi-selector path, and retire the other rows of the run.
`none` models the `assert` failure aborting the process. -/
def apply_merge (ctx : OptCtx) (cur : RowState) (mg : Nat × Nat) : Option RowState :=
  if merge_ok ctx mg then
    some (delete_rows (cur.set mg.1 (some (merged_rule ctx mg))) mg.1
      (mg.1 + mg.2 - 1))
  else none

/-- Result of one chain pass: `err` is the collection-overflow path (rules
untouched, `ret = -1`), `aborted` the assertion failure, `ok` the rewritten
rule list. -/
inductive OptResult where
  | err (rules : List Rule)
  | aborted
  | ok (rules : List Rule)

/-- The merge intervals of a chain context (step 3 applied to its matrix). -/
def chain_merges (ctx : OptCtx) : List (Nat × Nat) :=
  scan_runs (rules_eq ctx) ctx.rules.length

/-- Step 4 in full: apply every merge in order to the row state. -/
def apply_merges (ctx : OptCtx) (merges : List (Nat × Nat)) : Option RowState :=
  merges.foldl (fun st mg => st.bind (fun cur => apply_merge ctx cur mg))
    (some (ctx.rules.map some))

/-- Function `chain_optimize` (lines 388-476): collect the registry, build the
matrix, scan for runs, and rewrite each run in order. -/
def chain_optimize (rules : List Rule) : OptResult :=
  match chain_collect [] rules with
  | none => .err rules
  | some reg =>
    match apply_merges (build_ctx reg rules) (chain_merges (build_ctx reg rules)) with
    | none => .aborted
    | some cur => .ok (cur.filterMap id)

/-! ### A key-based characterization of statement equality

`__stmt_type_eq` compares only a bounded set of identity fields.  We package
those fields into an optional key and prove that two statements are equal
exactly when both possess a key and the keys coincide.  Symmetry and
transitivity of the predicate follow at once. -/

/-- The identity fields of an enumerated selector kind. -/
inductive SelKey where
  | payloadK (desc tmpl : Nat)
  | exthdrK (desc tmpl : Nat)
  | metaK (key base : Nat)
  | ctK (key base : Nat) (direction : Int) (nfproto : Nat)
  | rtK (key : Nat)
  | socketK (key level : Nat)
deriving DecidableEq

/-- The selector key of a left-hand expression; `none` when the kind is not
one of the six enumerated selector kinds. -/
def sel_key : Expr → Option SelKey
  | .payload d t => some (.payloadK d t)
  | .exthdr d t => some (.exthdrK d t)
  | .meta k b => some (.metaK k b)
  | .ct k b d p => some (.ctK k b d p)
  | .rt k => some (.rtK k)
  | .socket k l => some (.socketK k l)
  | _ => none

/-- The identity fields a statement is compared by. -/
inductive StmtKey where
  | expressionK (sel : SelKey)
  | counterK
  | notrackK
  | verdictK (vtag : Int) (chain : Option (Nat × String))
  | limitK (rate unit burst ltype flags : Nat)
  | logK (snaplen group qthreshold level logflags flags : Nat) (num : Int)
  | rejectK (family rtype icmp_code : Nat)
deriving DecidableEq

/-- The part of a verdict's chain expression that equality inspects: the
expression kind, and the identifier only on value expressions. -/
def chain_key (e : Expr) : Nat × String :=
  (etype e, if etype e == EXPR_VALUE then expr_identifier e else "")

/-- The comparison key of a statement; `none` when the statement can never
compare equal to anything (unsupported kind, non-selector left-hand side,
non-value log prefix, reject with an extended expression). -/
def stmt_key : Stmt → Option StmtKey
  | .expression l _ => (sel_key l).map .expressionK
  | .counter => some .counterK
  | .notrack => some .notrackK
  | .verdict v c => some (.verdictK v (c.map chain_key))
  | .limit r u b t f => some (.limitK r u b t f)
  | .log s g q l lf f p =>
    if etype p == EXPR_VALUE then some (.logK s g q l lf f (expr_num p))
    else none
  | .reject e f t c => if e.isSome then none else some (.rejectK f t c)
  | .other _ => none

theorem expr_eq_iff_selkey (la lb ra rb : Expr) :
    __stmt_type_eq (.expression la ra) (.expression lb rb) = true ↔
      ((sel_key la).isSome ∧ sel_key la = sel_key lb) := by
  cases la <;> cases lb <;>
    simp [__stmt_type_eq, sel_key, etype, stype, ite_eq_iff]

theorem stmt_eq_stype {a b : Stmt} (h : __stmt_type_eq a b = true) :
    stype a = stype b := by
  by_contra hne
  have hc : (stype a != stype b) = true := bne_iff_ne.mpr hne
  unfold __stmt_type_eq at h
  rw [hc] at h
  simp at h

/-- Which statement kind a key belongs to. -/
def key_kind : StmtKey → Nat
  | .expressionK _ => 0
  | .counterK => 1
  | .notrackK => 2
  | .verdictK _ _ => 3
  | .limitK _ _ _ _ _ => 4
  | .logK _ _ _ _ _ _ _ => 5
  | .rejectK _ _ _ => 6

theorem stmt_key_stype {a : Stmt} {k : StmtKey} (h : stmt_key a = some k) :
    key_kind k = stype a := by
  cases a <;> simp only [stmt_key, stype] at h ⊢ <;>
    first
    | (obtain ⟨s, -, rfl⟩ := Option.map_eq_some'.mp h; rfl)
    | (split at h <;> first | (cases h; rfl) | cases h)
    | (cases h; rfl)
    | cases h

theorem verdict_chain_eq_iff (e1 e2 : Expr) :
    (if etype e1 != etype e2 then false
     else if etype e1 == EXPR_VALUE &&
             expr_identifier e1 != expr_identifier e2 then false
     else true) = true ↔ chain_key e1 = chain_key e2 := by
  by_cases het : etype e1 = etype e2
  · have hbne : (etype e1 != etype e2) = false := by simp [het]
    by_cases hv : etype e1 = EXPR_VALUE
    · have hv2 : etype e2 = EXPR_VALUE := het ▸ hv
      simp [chain_key, hbne, hv, hv2, het, Prod.ext_iff, ite_eq_iff,
        bne_iff_ne]
    · have hv2 : ¬ etype e2 = EXPR_VALUE := het ▸ hv
      simp [chain_key, hbne, hv, hv2, het, Prod.ext_iff]
  · simp [chain_key, bne_iff_ne.mpr het, Prod.ext_iff, het]

theorem stmt_eq_iff_key (a b : Stmt) :
    __stmt_type_eq a b = true ↔ ((stmt_key a).isSome ∧ stmt_key a = stmt_key b) := by
  have hinj : Function.Injective StmtKey.expressionK := by
    intro x y h
    cases h
    rfl
  by_cases hst : stype a = stype b
  · cases a <;> cases b <;> try (exfalso; simp only [stype] at hst; omega)
    next la ra lb rb =>
      refine (expr_eq_iff_selkey la lb ra rb).trans ?_
      simp [stmt_key, (Option.map_injective hinj).eq_iff]
    next => simp [__stmt_type_eq, stmt_key]
    next => simp [__stmt_type_eq, stmt_key]
    next v1 c1 v2 c2 =>
      by_cases hv : v1 = v2
      · subst hv
        cases c1 <;> cases c2
        · simp [__stmt_type_eq, stmt_key]
        · simp [__stmt_type_eq, stmt_key]
        · simp [__stmt_type_eq, stmt_key]
        · next e1 e2 =>
            have := verdict_chain_eq_iff e1 e2
            simpa [__stmt_type_eq, stmt_key, stype] using this
      · simp [__stmt_type_eq, stmt_key, bne_iff_ne.mpr hv, hv]
    next r1 u1 b1 t1 f1 r2 u2 b2 t2 f2 =>
      simp [__stmt_type_eq, stmt_key, ite_eq_iff, bne_iff_ne]
      tauto
    next s1 g1 q1 l1 lf1 f1 p1 s2 g2 q2 l2 lf2 f2 p2 =>
      by_cases h1 : etype p1 = EXPR_VALUE <;> by_cases h2 : etype p2 = EXPR_VALUE <;>
        simp [__stmt_type_eq, stmt_key, ite_eq_iff, bne_iff_ne, h1, h2] <;>
        tauto
    next e1 f1 t1 c1 e2 f2 t2 c2 =>
      cases e1 <;> cases e2 <;>
        simp [__stmt_type_eq, stmt_key, ite_eq_iff, bne_iff_ne] <;>
        tauto
    next t1 t2 => simp [__stmt_type_eq, stmt_key]
  · constructor
    · intro h
      exact absurd (stmt_eq_stype h) hst
    · rintro ⟨h1, h2⟩
      obtain ⟨k, hk⟩ := Option.isSome_iff_exists.mp h1
      exact (hst ((stmt_key_stype hk).symm.trans (stmt_key_stype (h2 ▸ hk)))).elim

theorem __stmt_type_eq_symm (a b : Stmt) :
    __stmt_type_eq a b = __stmt_type_eq b a := by
  rw [Bool.eq_iff_iff, stmt_eq_iff_key, stmt_eq_iff_key]
  constructor
  · rintro ⟨h1, h2⟩
    exact ⟨h2 ▸ h1, h2.symm⟩
  · rintro ⟨h1, h2⟩
    exact ⟨h2 ▸ h1, h2.symm⟩

theorem __stmt_type_eq_trans {a b c : Stmt} (h1 : __stmt_type_eq a b = true)
    (h2 : __stmt_type_eq b c = true) : __stmt_type_eq a c = true := by
  obtain ⟨s1, e1⟩ := (stmt_eq_iff_key a b).mp h1
  obtain ⟨s2, e2⟩ := (stmt_eq_iff_key b c).mp h2
  exact (stmt_eq_iff_key a c).mpr ⟨s1, e1.trans e2⟩

theorem stmt_type_eq_symm (a b : Option Stmt) :
    stmt_type_eq a b = stmt_type_eq b a := by
  cases a <;> cases b <;> simp [stmt_type_eq, __stmt_type_eq_symm]

theorem stmt_type_eq_trans {a b c : Option Stmt} (h1 : stmt_type_eq a b = true)
    (h2 : stmt_type_eq b c = true) : stmt_type_eq a c = true := by
  cases a <;> cases b <;> cases c <;> simp_all [stmt_type_eq]
  exact __stmt_type_eq_trans h1 h2

theorem rules_eq_iff {ctx : OptCtx} {i j : Nat} :
    rules_eq ctx i j = true ↔
      ∀ k, k < ctx.reg.length →
        stmt_type_eq (cell_stmt ctx i k) (cell_stmt ctx j k) = true := by
  simp [rules_eq, List.all_eq_true, List.mem_range]

theorem rules_eq_symm (ctx : OptCtx) (i j : Nat) :
    rules_eq ctx i j = rules_eq ctx j i := by
  rw [Bool.eq_iff_iff, rules_eq_iff, rules_eq_iff]
  constructor <;> intro h k hk
  · rw [stmt_type_eq_symm]
    exact h k hk
  · rw [stmt_type_eq_symm]
    exact h k hk

theorem rules_eq_trans {ctx : OptCtx} {i j l : Nat}
    (h1 : rules_eq ctx i j = true) (h2 : rules_eq ctx j l = true) :
    rules_eq ctx i l = true := by
  rw [rules_eq_iff] at h1 h2 ⊢
  intro k hk
  exact stmt_type_eq_trans (h1 k hk) (h2 k hk)

/-- Whether a left-hand expression is one of the six enumerated selector
kinds of the equality predicate. -/
def enumerated_selector (e : Expr) : Bool :=
  (sel_key e).isSome

theorem chain_key_eq_iff (e1 e2 : Expr) :
    chain_key e1 = chain_key e2 ↔
      (etype e1 = etype e2 ∧
        (etype e1 = EXPR_VALUE → expr_identifier e1 = expr_identifier e2)) := by
  by_cases het : etype e1 = etype e2
  · by_cases hv : etype e1 = EXPR_VALUE
    · have hv2 : etype e2 = EXPR_VALUE := het ▸ hv
      simp [chain_key, het, hv, hv2, Prod.ext_iff]
    · have hv2 : ¬ etype e2 = EXPR_VALUE := het ▸ hv
      simp [chain_key, het, hv, hv2, Prod.ext_iff]
  · simp [chain_key, Prod.ext_iff, het]

/-- C5: `stmt_type_eq` is true on two empty slots, false when exactly one
side is empty; two present statements must share their kind; expression
statements are compared by the enumerated left-hand identity fields alone
(the right-hand sides are irrelevant), a non-enumerated left-hand kind never
compares equal, and a statement kind outside the handled set compares
unequal to everything, itself included. -/
theorem stmt_type_eq_spec :
    stmt_type_eq none none = true ∧
    (∀ a : Stmt, stmt_type_eq (some a) none = false ∧
      stmt_type_eq none (some a) = false) ∧
    (∀ a b : Stmt, __stmt_type_eq a b = true → stype a = stype b) ∧
    (∀ la lb ra ra' rb rb' : Expr,
      __stmt_type_eq (.expression la ra) (.expression lb rb) =
        __stmt_type_eq (.expression la ra') (.expression lb rb')) ∧
    (∀ la lb ra rb : Expr,
      __stmt_type_eq (.expression la ra) (.expression lb rb) = true ↔
        (enumerated_selector la = true ∧ sel_key la = sel_key lb)) ∧
    (∀ la lb ra rb : Expr, enumerated_selector la = false →
      __stmt_type_eq (.expression la ra) (.expression lb rb) = false) ∧
    (∀ (t : Nat) (b : Stmt), __stmt_type_eq (.other t) b = false ∧
      __stmt_type_eq b (.other t) = false) := by
  refine ⟨rfl, fun a => ⟨rfl, rfl⟩, fun a b h => stmt_eq_stype h, ?_, ?_, ?_, ?_⟩
  · intro la lb ra ra' rb rb'
    rw [Bool.eq_iff_iff, expr_eq_iff_selkey, expr_eq_iff_selkey]
  · intro la lb ra rb
    exact expr_eq_iff_selkey la lb ra rb
  · intro la lb ra rb h
    rw [Bool.eq_false_iff]
    intro hc
    have := ((expr_eq_iff_selkey la lb ra rb).mp hc).1
    rw [enumerated_selector] at h
    rw [h] at this
    cases this
  · intro t b
    constructor
    · rw [Bool.eq_false_iff]
      intro hc
      have := ((stmt_eq_iff_key _ _).mp hc).1
      simp [stmt_key] at this
    · rw [Bool.eq_false_iff]
      intro hc
      obtain ⟨h1, h2⟩ := (stmt_eq_iff_key _ _).mp hc
      rw [h2] at h1
      simp [stmt_key] at h1

/-- Witness for `stmt_type_eq_spec`: concrete instances discharging the
hypothesis-bearing conjuncts. -/
theorem stmt_type_eq_spec_witness :
    stype (Stmt.counter) = stype (Stmt.counter) ∧
    __stmt_type_eq (.expression (.concat []) (.value 0 ""))
      (.expression (.concat []) (.value 0 "")) = false ∧
    __stmt_type_eq (.other 3) .counter = false := by
  refine ⟨?_, ?_, ?_⟩
  · exact stmt_type_eq_spec.2.2.1 .counter .counter rfl
  · exact stmt_type_eq_spec.2.2.2.2.2.1 (.concat []) (.concat [])
      (.value 0 "") (.value 0 "") rfl
  · exact (stmt_type_eq_spec.2.2.2.2.2.2 3 .counter).1

/-- C7, counterexample: two present verdict statements whose chain targets
are non-identifier expressions of the same kind — here concatenations with
different contents — compare EQUAL, while the claim states they must
compare unequal. -/
theorem verdict_nonvalue_chain_counterexample :
    __stmt_type_eq (.verdict 1 (some (.concat [.value 3 "x"])))
      (.verdict 1 (some (.concat []))) = true := by rfl

/-- C7 (amended): two present verdict statements compare equal iff the
verdict tags agree and the chain targets are both absent, or both present
with the same expression kind and — only when that kind is a value
(identifier) expression — the same identifier; chain targets of the same
non-identifier kind compare equal regardless of their content. -/
theorem verdict_stmt_eq_iff (v1 v2 : Int) (c1 c2 : Option Expr) :
    __stmt_type_eq (.verdict v1 c1) (.verdict v2 c2) = true ↔
      (v1 = v2 ∧
        ((c1 = none ∧ c2 = none) ∨
         (∃ e1 e2, c1 = some e1 ∧ c2 = some e2 ∧ etype e1 = etype e2 ∧
           (etype e1 = EXPR_VALUE →
             expr_identifier e1 = expr_identifier e2)))) := by
  rw [stmt_eq_iff_key]
  cases c1 <;> cases c2 <;>
    simp [stmt_key, chain_key_eq_iff]

/-! ### The registry cap (C6) -/

theorem rule_collect_uncapped_mono (stmts : List Stmt) (reg : List Stmt) :
    reg.length ≤ (rule_collect_uncapped reg stmts).length := by
  induction stmts generalizing reg with
  | nil => simp [rule_collect_uncapped]
  | cons s rest ih =>
    rw [rule_collect_uncapped]
    split
    · exact ih reg
    · calc reg.length ≤ (reg ++ [stmt_clone s]).length := by simp
        _ ≤ _ := ih _

theorem chain_collect_uncapped_mono (rules : List Rule) (reg : List Stmt) :
    reg.length ≤ (chain_collect_uncapped reg rules).length := by
  induction rules generalizing reg with
  | nil => simp [chain_collect_uncapped]
  | cons rule rest ih =>
    rw [chain_collect_uncapped]
    exact le_trans (rule_collect_uncapped_mono rule reg) (ih _)

theorem rule_collect_capped_eq (stmts : List Stmt) (reg : List Stmt)
    (hlen : reg.length < MAX_STMTS) :
    rule_collect_stmts reg stmts =
      if MAX_STMTS ≤ (rule_collect_uncapped reg stmts).length then none
      else some (rule_collect_uncapped reg stmts) := by
  induction stmts generalizing reg with
  | nil =>
    simp [rule_collect_stmts, rule_collect_uncapped, Nat.not_le.mpr hlen]
  | cons s rest ih =>
    rw [rule_collect_stmts, rule_collect_uncapped]
    split
    · exact ih reg hlen
    · by_cases hcap : MAX_STMTS ≤ (reg ++ [stmt_clone s]).length
      · rw [if_pos hcap]
        have : MAX_STMTS ≤ (rule_collect_uncapped (reg ++ [stmt_clone s]) rest).length :=
          le_trans hcap (rule_collect_uncapped_mono rest _)
        rw [if_pos this]
      · rw [if_neg hcap]
        exact ih _ (Nat.not_le.mp hcap)

theorem chain_collect_capped_eq (rules : List Rule) (reg : List Stmt)
    (hlen : reg.length < MAX_STMTS) :
    chain_collect reg rules =
      if MAX_STMTS ≤ (chain_collect_uncapped reg rules).length then none
      else some (chain_collect_uncapped reg rules) := by
  induction rules generalizing reg with
  | nil => simp [chain_collect, chain_collect_uncapped, Nat.not_le.mpr hlen]
  | cons rule rest ih =>
    rw [chain_collect, chain_collect_uncapped, rule_collect_capped_eq rule reg hlen]
    by_cases hcap : MAX_STMTS ≤ (rule_collect_uncapped reg rule).length
    · rw [if_pos hcap]
      have : MAX_STMTS ≤ (chain_collect_uncapped (rule_collect_uncapped reg rule) rest).length :=
        le_trans hcap (chain_collect_uncapped_mono rest _)
      rw [if_pos this]
    · rw [if_neg hcap]
      exact ih _ (Nat.not_le.mp hcap)

/-- C6 (amended): a chain is abandoned with its rules untouched exactly when
the collection phase accumulates `MAX_STMTS` (32) or more registry keys —
where a key is appended for every statement not statement-equal to the clone
key of any earlier statement — and an `err` result always carries the
unchanged input rules.  (The claim's "more than 32" boundary is off by one:
reaching 32 keys already aborts, see `registry_cap_counterexample`.) -/
theorem chain_optimize_err_iff (rules : List Rule) :
    (chain_optimize rules = .err rules ↔
      MAX_STMTS ≤ (chain_collect_uncapped [] rules).length) ∧
    (∀ r, chain_optimize rules = .err r → r = rules) := by
  have hcol := chain_collect_capped_eq rules [] (by simp [MAX_STMTS])
  constructor
  · rw [chain_optimize, hcol]
    by_cases hcap : MAX_STMTS ≤ (chain_collect_uncapped [] rules).length
    · simp [hcap]
    · rw [if_neg hcap]
      simp only [hcap, iff_false]
      intro hcontra
      split at hcontra <;> cases hcontra
  · intro r
    rw [chain_optimize]
    split
    · intro h
      cases h
      rfl
    · intro h
      split at h <;> cases h

/-- The number of distinct statement columns of a chain, following the
claim's words: statements of all rules, deduplicated under statement
equality. -/
def distinct_reps (acc : List Stmt) : List Stmt → List Stmt
  | [] => acc
  | s :: rest =>
    if acc.any (fun t => __stmt_type_eq s t) then distinct_reps acc rest
    else distinct_reps (acc ++ [s]) rest

/-- Distinct-column count of a chain under statement equality. -/
def distinct_stmt_columns (rules : List Rule) : Nat :=
  (distinct_reps [] rules.flatten).length

/-- A chain of 32 rules with 32 pairwise-distinct meta selectors. -/
def cap_rules : List Rule :=
  (List.range 32).map (fun k => [Stmt.expression (.meta k 0) (.value 7 "")])

/-- C6, counterexample: this chain has exactly 32 distinct statement columns
under statement equality — not more than 32, so by the claim it should
proceed through the optimization phases — yet `chain_optimize` abandons it,
returning the error path with the rules untouched. -/
theorem registry_cap_counterexample :
    distinct_stmt_columns cap_rules = 32 ∧
    ¬ 32 < distinct_stmt_columns cap_rules ∧
    chain_optimize cap_rules = .err cap_rules := by
  refine ⟨rfl, ?_, rfl⟩
  intro h
  rw [show distinct_stmt_columns cap_rules = 32 from rfl] at h
  exact absurd h (by decide)

/-- Witness for `chain_optimize_err_iff`: on a 32-column chain the error
path is taken and carries the unchanged rules. -/
theorem chain_optimize_err_iff_witness :
    chain_optimize cap_rules = .err cap_rules ∧ cap_rules = cap_rules :=
  ⟨(chain_optimize_err_iff cap_rules).1.mpr (by decide),
   (chain_optimize_err_iff cap_rules).2 cap_rules rfl⟩

/-! ### The adjacency scanner (C3) -/

theorem run_end_aux_ge (eq : Nat → Nat → Bool) (i : Nat) (fuel j : Nat) :
    j ≤ run_end_aux eq i fuel j := by
  induction fuel generalizing j with
  | zero => simp [run_end_aux]
  | succ fuel ih =>
    rw [run_end_aux]
    split
    · exact le_trans (Nat.le_succ j) (ih (j + 1))
    · exact le_refl j

theorem run_end_aux_le (eq : Nat → Nat → Bool) (i : Nat) (fuel j : Nat) :
    run_end_aux eq i fuel j ≤ j + fuel := by
  induction fuel generalizing j with
  | zero => simp [run_end_aux]
  | succ fuel ih =>
    rw [run_end_aux]
    split
    · exact le_trans (ih (j + 1)) (by omega)
    · omega

theorem run_end_aux_inside (eq : Nat → Nat → Bool) (i : Nat) (fuel j : Nat) :
    ∀ m, j ≤ m → m < run_end_aux eq i fuel j → eq i m = true := by
  induction fuel generalizing j with
  | zero =>
    intro m h1 h2
    rw [run_end_aux] at h2
    omega
  | succ fuel ih =>
    intro m h1 h2
    rw [run_end_aux] at h2
    split at h2
    · rcases Nat.eq_or_lt_of_le h1 with rfl | hlt
      · assumption
      · exact ih (j + 1) m hlt h2
    · omega

theorem run_end_aux_stop (eq : Nat → Nat → Bool) (i : Nat) (fuel j : Nat) :
    run_end_aux eq i fuel j = j + fuel ∨
      eq i (run_end_aux eq i fuel j) = false := by
  induction fuel generalizing j with
  | zero => left; simp [run_end_aux]
  | succ fuel ih =>
    rw [run_end_aux]
    split
    · rcases ih (j + 1) with h | h
      · left; omega
      · right; exact h
    case isFalse hc =>
      right
      exact Bool.eq_false_iff.mpr hc

theorem run_end_ge (eq : Nat → Nat → Bool) (n i j : Nat) : j ≤ run_end eq n i j :=
  run_end_aux_ge eq i (n - j) j

theorem run_end_le (eq : Nat → Nat → Bool) {n i j : Nat} (h : j ≤ n) :
    run_end eq n i j ≤ n := by
  unfold run_end
  exact le_trans (run_end_aux_le eq i (n - j) j) (by omega)

theorem run_end_inside (eq : Nat → Nat → Bool) (n i j : Nat) :
    ∀ m, j ≤ m → m < run_end eq n i j → eq i m = true :=
  run_end_aux_inside eq i (n - j) j

theorem run_end_stop (eq : Nat → Nat → Bool) {n i j : Nat} (h : j ≤ n) :
    run_end eq n i j = n ∨ eq i (run_end eq n i j) = false := by
  unfold run_end
  rcases run_end_aux_stop eq i (n - j) j with h1 | h1
  · left; omega
  · right; exact h1

/-- Soundness of the scan: every emitted run starts at or after the scan
cursor, has length at least two, stays in bounds, consists of rows equal to
its head, cannot be extended to the right, and — unless it starts at the
cursor itself — is preceded by a row that broke the previous run. -/
theorem scan_runs_aux_sound (eq : Nat → Nat → Bool)
    (htr : ∀ a b c, eq a b = true → eq b c = true → eq a c = true)
    (n : Nat) (fuel i : Nat) :
    ∀ f len, (f, len) ∈ scan_runs_aux eq n fuel i →
      i ≤ f ∧ 2 ≤ len ∧ f + len ≤ n ∧
      (∀ m, f < m → m < f + len → eq f m = true) ∧
      (f + len = n ∨ eq f (f + len) = false) ∧
      (f = i ∨ (0 < f ∧ eq (f - 1) f = false)) := by
  induction fuel generalizing i with
  | zero =>
    intro f len h
    simp [scan_runs_aux] at h
  | succ fuel ih =>
    intro f len h
    rw [scan_runs_aux] at h
    split at h
    case isTrue hn =>
      split at h
      case isTrue hj =>
        rcases List.mem_cons.mp h with heq | hmem
        · cases heq
          have hle : run_end eq n i (i + 1) ≤ n := run_end_le eq (by omega)
          have hin := run_end_inside eq n i (i + 1)
          have hstop := run_end_stop eq (n := n) (i := i) (j := i + 1) (by omega)
          refine ⟨le_refl _, by omega, by omega, ?_, ?_, Or.inl rfl⟩
          · intro m h1 h2
            exact hin m (by omega) (by omega)
          · rcases hstop with h1 | h1
            · left; omega
            · right
              have : i + (run_end eq n i (i + 1) - i) = run_end eq n i (i + 1) := by
                omega
              rw [this]
              exact h1
        · obtain ⟨h1, h2, h3, h4, h5, h6⟩ := ih _ _ _ hmem
          refine ⟨by omega, h2, h3, h4, h5, ?_⟩
          rcases h6 with heq | h6
          · -- the run starts exactly where the previous run stopped
            right
            have hfn : f < n := by omega
            have hstop := run_end_stop eq (n := n) (i := i) (j := i + 1) (by omega)
            have hiend : eq i f = false := by
              rcases hstop with h' | h'
              · omega
              · rw [heq]; exact h'
            refine ⟨by omega, ?_⟩
            by_contra hc
            have hc' : eq (f - 1) f = true := by
              revert hc
              cases eq (f - 1) f <;> simp
            have hif : eq i (f - 1) = true ∨ i = f - 1 := by
              rcases Nat.lt_or_ge i (f - 1) with hlt | hge
              · left
                exact run_end_inside eq n i (i + 1) (f - 1) (by omega) (by omega)
              · right; omega
            rcases hif with h' | h'
            · have := htr _ _ _ h' hc'
              rw [this] at hiend
              cases hiend
            · rw [← h'] at hc'
              rw [hc'] at hiend
              cases hiend
          · exact Or.inr h6
      case isFalse hj =>
        obtain ⟨h1, h2, h3, h4, h5, h6⟩ := ih _ _ _ h
        refine ⟨by omega, h2, h3, h4, h5, ?_⟩
        rcases h6 with heq | h6
        · right
          have hend : run_end eq n i (i + 1) = i + 1 := by
            have := run_end_ge eq n i (i + 1)
            omega
          have hne : eq i (i + 1) = false := by
            rcases run_end_stop eq (n := n) (i := i) (j := i + 1) (by omega) with h' | h'
            · omega
            · rw [hend] at h'; exact h'
          have hf1 : f - 1 = i := by omega
          rw [hf1, heq]
          exact ⟨by omega, hne⟩
        · exact Or.inr h6
    case isFalse hn =>
      simp at h

/-- Ordering of the scan: emitted runs are disjoint and in row order. -/
theorem scan_runs_aux_sorted (eq : Nat → Nat → Bool)
    (htr : ∀ a b c, eq a b = true → eq b c = true → eq a c = true)
    (n : Nat) (fuel i : Nat) :
    List.Pairwise (fun a b => a.1 + a.2 ≤ b.1) (scan_runs_aux eq n fuel i) := by
  induction fuel generalizing i with
  | zero => simp [scan_runs_aux]
  | succ fuel ih =>
    rw [scan_runs_aux]
    split
    case isTrue hn =>
      split
      case isTrue hj =>
        refine List.pairwise_cons.mpr ⟨?_, ih _⟩
        intro b hb
        have := (scan_runs_aux_sound eq htr n fuel _ b.1 b.2 (by
          simpa using hb)).1
        simp only
        omega
      case isFalse hj => exact ih _
    case isFalse hn => exact List.Pairwise.nil

/-- Completeness of the scan: every adjacent equal pair at or after the
cursor is covered by some emitted run, provided the fuel suffices. -/
theorem scan_runs_aux_complete (eq : Nat → Nat → Bool)
    (htr : ∀ a b c, eq a b = true → eq b c = true → eq a c = true)
    (n : Nat) (fuel i : Nat) (hfuel : n ≤ i + fuel) :
    ∀ m, i ≤ m → m + 1 < n → eq m (m + 1) = true →
      ∃ f len, (f, len) ∈ scan_runs_aux eq n fuel i ∧ f ≤ m ∧ m + 1 < f + len := by
  induction fuel generalizing i with
  | zero =>
    intro m h1 h2 h3
    omega
  | succ fuel ih =>
    intro m h1 h2 h3
    rw [scan_runs_aux]
    split
    case isTrue hn =>
      have hge := run_end_ge eq n i (i + 1)
      have hle : run_end eq n i (i + 1) ≤ n := run_end_le eq (by omega)
      split
      case isTrue hj =>
        rcases Nat.lt_or_ge (m + 1) (run_end eq n i (i + 1)) with hlt | hge2
        · exact ⟨i, run_end eq n i (i + 1) - i, List.mem_cons_self _ _, h1, by omega⟩
        · rcases Nat.eq_or_lt_of_le hge2 with heq | hlt2
          · -- m + 1 is exactly the break point: contradiction with eq m (m+1)
            exfalso
            have hstop := run_end_stop eq (n := n) (i := i) (j := i + 1) (by omega)
            have hiend : eq i (run_end eq n i (i + 1)) = false := by
              rcases hstop with h | h
              · omega
              · exact h
            have him : eq i m = true ∨ i = m := by
              rcases Nat.lt_or_ge i m with hlt | hge3
              · left
                exact run_end_inside eq n i (i + 1) m (by omega) (by omega)
              · right; omega
            rcases him with h | rfl
            · have := htr _ _ _ h h3
              rw [← heq] at this
              rw [this] at hiend
              cases hiend
            · rw [← heq] at h3
              rw [h3] at hiend
              cases hiend
          · obtain ⟨f, len, hmem, hf1, hf2⟩ :=
              ih (run_end eq n i (i + 1)) (by omega) m (by omega) h2 h3
            exact ⟨f, len, List.mem_cons_of_mem _ hmem, hf1, hf2⟩
      case isFalse hj =>
        have hend : run_end eq n i (i + 1) = i + 1 := by omega
        have hne : eq i (i + 1) = false := by
          rcases run_end_stop eq (n := n) (i := i) (j := i + 1) (by omega) with h | h
          · omega
          · rw [hend] at h; exact h
        rcases Nat.eq_or_lt_of_le h1 with rfl | hlt
        · rw [h3] at hne
          cases hne
        · exact ih (i + 1) (by omega) m (by omega) h2 h3
    case isFalse hn => omega

/-- C3: the scanner emits, in row order and pairwise non-overlapping, exactly
the maximal runs of consecutive matrix-equal rows: every emitted run has
length at least two and stays in bounds, its rows are pairwise matrix-equal,
it can be extended in neither direction (so runs are maximal and scanning
resumed at the row that broke each run), and every adjacent matrix-equal
pair of rows is covered by an emitted run (so no run is missed and no
single-row run is emitted). -/
theorem adjacency_scan_spec (ctx : OptCtx) :
    (∀ f len, (f, len) ∈ chain_merges ctx →
      2 ≤ len ∧ f + len ≤ ctx.rules.length ∧
      (∀ p q, f ≤ p → p < f + len → f ≤ q → q < f + len → p ≠ q →
        rules_eq ctx p q = true) ∧
      (f + len < ctx.rules.length →
        rules_eq ctx (f + len - 1) (f + len) = false) ∧
      (0 < f → rules_eq ctx (f - 1) f = false)) ∧
    List.Pairwise (fun a b => a.1 + a.2 ≤ b.1) (chain_merges ctx) ∧
    (∀ m, m + 1 < ctx.rules.length → rules_eq ctx m (m + 1) = true →
      ∃ f len, (f, len) ∈ chain_merges ctx ∧ f ≤ m ∧ m + 1 < f + len) := by
  have htr : ∀ a b c, rules_eq ctx a b = true → rules_eq ctx b c = true →
      rules_eq ctx a c = true := fun a b c h1 h2 => rules_eq_trans h1 h2
  refine ⟨?_, ?_, ?_⟩
  · intro f len hmem
    obtain ⟨h1, h2, h3, h4, h5, h6⟩ :=
      scan_runs_aux_sound (rules_eq ctx) htr ctx.rules.length ctx.rules.length 0
        f len hmem
    refine ⟨h2, h3, ?_, ?_, ?_⟩
    · intro p q hp1 hp2 hq1 hq2 hpq
      rcases Nat.eq_or_lt_of_le hp1 with heqp | hltp
      · rcases Nat.eq_or_lt_of_le hq1 with heqq | hltq
        · omega
        · rw [← heqp]
          exact h4 q hltq hq2
      · rcases Nat.eq_or_lt_of_le hq1 with heqq | hltq
        · rw [← heqq, rules_eq_symm]
          exact h4 p hltp hp2
        · have e1 : rules_eq ctx p f = true := by
            rw [rules_eq_symm]
            exact h4 p hltp hp2
          exact htr _ _ _ e1 (h4 q hltq hq2)
    · intro hlt
      have hend : rules_eq ctx f (f + len) = false := by
        rcases h5 with h' | h'
        · omega
        · exact h'
      by_contra hc
      have hc' : rules_eq ctx (f + len - 1) (f + len) = true := by
        revert hc
        cases rules_eq ctx (f + len - 1) (f + len) <;> simp
      have hmid : rules_eq ctx f (f + len - 1) = true ∨ f = f + len - 1 := by
        rcases Nat.lt_or_ge f (f + len - 1) with hlt' | hge
        · left
          exact h4 (f + len - 1) hlt' (by omega)
        · right; omega
      rcases hmid with h' | h'
      · rw [htr _ _ _ h' hc'] at hend
        cases hend
      · rw [← h'] at hc'
        rw [hc'] at hend
        cases hend
    · intro hf
      rcases h6 with heq | h6
      · omega
      · exact h6.2
  · exact scan_runs_aux_sorted (rules_eq ctx) htr ctx.rules.length ctx.rules.length 0
  · intro m hm heq
    exact scan_runs_aux_complete (rules_eq ctx) htr ctx.rules.length
      ctx.rules.length 0 (by omega) m (by omega) hm heq

/-- A two-row context whose rows are matrix-equal, used as witness input. -/
def pair_ctx : OptCtx :=
  build_ctx [Stmt.expression (.meta 1 0) (.value 1 "")]
    [[Stmt.expression (.meta 1 0) (.value 1 "")],
     [Stmt.expression (.meta 1 0) (.value 2 "")]]

/-- Witness for `adjacency_scan_spec`: on a concrete two-row matrix the
completeness part yields the run covering rows 0 and 1. -/
theorem adjacency_scan_spec_witness :
    ∃ f len, (f, len) ∈ chain_merges pair_ctx ∧ f ≤ 0 ∧ 1 < f + len :=
  (adjacency_scan_spec pair_ctx).2.2 0 (by decide) (by decide)

/-! ### The rewriters (C1, C2) -/

theorem get?_eq_some_getD {α : Type} [Inhabited α] {l : List α} {d : Nat}
    (h : d < l.length) : l.get? d = some (l.getD d default) := by
  rw [List.get?_eq_getElem?, List.getD_eq_getElem?_getD,
    List.getElem?_eq_getElem h]
  rfl

/-- C1: when the merge run `f … t` has a present expression statement at
position `p` of rule `f` in column `c`, the single-selector rewriter
replaces that statement's right-hand side with a fresh anonymous set of
exactly `t + 1 - f` set-element-wrapped elements whose `(i - f)`-th element
is row `i`'s original column-`c` right-hand side, in row order; the rest of
the rule is untouched. -/
theorem merge_stmts_spec (ctx : OptCtx) (f t c p : Nat) (l r : Expr)
    (hft : f ≤ t)
    (hp : cell_pos ctx f c = some p)
    (hs : (ctx.rules.getD f []).get? p = some (.expression l r)) :
    ∃ elems : List Expr,
      merge_stmts ctx f t c =
        (ctx.rules.getD f []).set p (.expression l (.setE true elems)) ∧
      elems.length = t + 1 - f ∧
      ∀ i, f ≤ i → i ≤ t →
        elems.get? (i - f) = some (.setElem (cell_rhs ctx i c)) := by
  refine ⟨Expr.setElem r ::
      (List.range (t - f)).map (fun d => Expr.setElem (cell_rhs ctx (f + 1 + d) c)),
    ?_, ?_, ?_⟩
  · rw [merge_stmts, hp]
    simp only [Option.getD_some, hs]
  · simp only [List.length_cons, List.length_map, List.length_range]
    omega
  · intro i h1 h2
    rcases Nat.eq_or_lt_of_le h1 with heq | hlt
    · rw [← heq]
      simp only [Nat.sub_self, List.get?]
      have hr : cell_rhs ctx f c = r := by
        rw [cell_rhs, cell_stmt, hp]
        show stmt_rhs (((ctx.rules.getD f []).get? p).getD (Stmt.other 0)) = r
        rw [hs]
        rfl
      rw [hr]
    · have hidx : i - f = (i - f - 1) + 1 := by omega
      rw [hidx]
      simp only [List.get?, List.get?_map]
      rw [List.get?_range (by omega : i - f - 1 < t - f)]
      simp only [Option.map_some']
      rw [show f + 1 + (i - f - 1) = i by omega]

/-- Witness for `merge_stmts_spec` on the concrete two-row context. -/
theorem merge_stmts_spec_witness :
    ∃ elems : List Expr,
      merge_stmts pair_ctx 0 1 0 =
        (pair_ctx.rules.getD 0 []).set 0
          (.expression (.meta 1 0) (.setE true elems)) ∧
      elems.length = 1 + 1 - 0 ∧
      ∀ i, 0 ≤ i → i ≤ 1 →
        elems.get? (i - 0) = some (.setElem (cell_rhs pair_ctx i 0)) :=
  merge_stmts_spec pair_ctx 0 1 0 0 (.meta 1 0) (.value 1 "")
    (by decide) (by decide) rfl

/-- C2: when the head row `f` of a run `f … t` has present expression
statements in every participating column (positions `p0` for the first
column), the multi-selector rewriter installs on the first column's
statement a left-hand concatenation whose `d`-th child is the head row's
column-`cols[d]` left-hand side and a right-hand anonymous set of
`t + 1 - f` elements whose `(i - f)`-th element is a concatenation whose
`d`-th child is row `i`'s column-`cols[d]` right-hand side; the statements
at the positions of the remaining participating columns are removed from
the rule. -/
theorem merge_concat_stmts_spec (ctx : OptCtx) (f t p0 : Nat)
    (cols : List Nat) (l0 r0 : Expr)
    (hft : f ≤ t)
    (hp0 : cell_pos ctx f (cols.headD 0) = some p0)
    (hs0 : (ctx.rules.getD f []).get? p0 = some (.expression l0 r0)) :
    ∃ (lhs_list : List Expr) (elems : List Expr),
      merge_concat_stmts ctx f t cols =
        remove_positions
          ((ctx.rules.getD f []).set p0
            (.expression (.concat lhs_list) (.setE true elems)))
          (cols.tail.map (fun c => (cell_pos ctx f c).getD 0)) ∧
      lhs_list.length = cols.length ∧
      (∀ d, d < cols.length →
        lhs_list.get? d = some (cell_lhs ctx f (cols.getD d 0))) ∧
      elems.length = t + 1 - f ∧
      (∀ i, f ≤ i → i ≤ t →
        ∃ row : List Expr,
          elems.get? (i - f) = some (.setElem (.concat row)) ∧
          row.length = cols.length ∧
          ∀ d, d < cols.length →
            row.get? d = some (cell_rhs ctx i (cols.getD d 0))) := by
  refine ⟨cols.map (fun c => cell_lhs ctx f c),
    (List.range (t + 1 - f)).map (fun d =>
      Expr.setElem (Expr.concat (cols.map (fun c => cell_rhs ctx (f + d) c)))),
    ?_, by simp, ?_, by simp, ?_⟩
  · rw [merge_concat_stmts, hp0]
    simp only [Option.getD_some]
  · intro d hd
    rw [List.get?_map, get?_eq_some_getD hd]
    rfl
  · intro i h1 h2
    refine ⟨cols.map (fun c => cell_rhs ctx i c), ?_, by simp, ?_⟩
    · rw [List.get?_map, List.get?_range (by omega : i - f < t + 1 - f)]
      simp only [Option.map_some']
      rw [show f + (i - f) = i by omega]
    · intro d hd
      rw [List.get?_map, get?_eq_some_getD hd]
      rfl

/-- A two-row context with two expression columns, used as witness input
for the multi-selector rewriter. -/
def pair2_ctx : OptCtx :=
  build_ctx
    [Stmt.expression (.meta 1 0) (.value 1 ""),
     Stmt.expression (.meta 2 0) (.value 3 "")]
    [[Stmt.expression (.meta 1 0) (.value 1 ""),
      Stmt.expression (.meta 2 0) (.value 3 "")],
     [Stmt.expression (.meta 1 0) (.value 2 ""),
      Stmt.expression (.meta 2 0) (.value 4 "")]]

/-- Witness for `merge_concat_stmts_spec` on the concrete two-column
context. -/
theorem merge_concat_stmts_spec_witness :
    ∃ (lhs_list : List Expr) (elems : List Expr),
      merge_concat_stmts pair2_ctx 0 1 [0, 1] =
        remove_positions
          ((pair2_ctx.rules.getD 0 []).set 0
            (.expression (.concat lhs_list) (.setE true elems)))
          ([0, 1].tail.map (fun c => (cell_pos pair2_ctx 0 c).getD 0)) ∧
      lhs_list.length = [0, 1].length ∧
      (∀ d, d < [0, 1].length →
        lhs_list.get? d = some (cell_lhs pair2_ctx 0 ([0, 1].getD d 0))) ∧
      elems.length = 1 + 1 - 0 ∧
      (∀ i, 0 ≤ i → i ≤ 1 →
        ∃ row : List Expr,
          elems.get? (i - 0) = some (.setElem (.concat row)) ∧
          row.length = [0, 1].length ∧
          ∀ d, d < [0, 1].length →
            row.get? d = some (cell_rhs pair2_ctx i ([0, 1].getD d 0))) :=
  merge_concat_stmts_spec pair2_ctx 0 1 0 [0, 1] (.meta 1 0) (.value 1 "")
    (by decide) (by decide) rfl

/-! ### Output shape of the chain pass (C4) -/

theorem delete_rows_aux_length (k : Nat) (cur : RowState) (p : Nat) :
    (delete_rows_aux cur p k).length = cur.length := by
  induction k generalizing cur p with
  | zero => rfl
  | succ k ih =>
    rw [delete_rows_aux, ih]
    exact List.length_set cur p none

theorem delete_rows_aux_get_out (k : Nat) (cur : RowState) (p i : Nat)
    (h : i < p ∨ p + k ≤ i) :
    (delete_rows_aux cur p k).get? i = cur.get? i := by
  induction k generalizing cur p with
  | zero => rfl
  | succ k ih =>
    rw [delete_rows_aux, ih _ _ (by omega)]
    exact List.get?_set_ne none cur (by omega)

theorem delete_rows_aux_get_in (k : Nat) (cur : RowState) (p i : Nat)
    (h1 : p ≤ i) (h2 : i < p + k) (h3 : i < cur.length) :
    (delete_rows_aux cur p k).get? i = some none := by
  induction k generalizing cur p with
  | zero => omega
  | succ k ih =>
    rw [delete_rows_aux]
    rcases Nat.eq_or_lt_of_le h1 with heq | hlt
    · rw [delete_rows_aux_get_out k _ _ _ (by omega), ← heq]
      exact List.get?_set_eq_of_lt none (by omega)
    · exact ih _ _ hlt (by omega) (by simpa using h3)

theorem delete_rows_length (cur : RowState) (f t : Nat) :
    (delete_rows cur f t).length = cur.length :=
  delete_rows_aux_length _ cur _

theorem delete_rows_get_out (cur : RowState) (f t i : Nat)
    (h : i ≤ f ∨ t < i) : (delete_rows cur f t).get? i = cur.get? i :=
  delete_rows_aux_get_out _ cur _ i (by omega)

theorem delete_rows_get_in (cur : RowState) (f t i : Nat)
    (h1 : f + 1 ≤ i) (h2 : i ≤ t) (h3 : i < cur.length) :
    (delete_rows cur f t).get? i = some none :=
  delete_rows_aux_get_in _ cur _ i (by omega) (by omega) h3

/-- Whether row `i` is a strictly interior row of one of the runs. -/
def run_interior (ms : List (Nat × Nat)) (i : Nat) : Bool :=
  ms.any (fun mg => decide (mg.1 < i) && decide (i < mg.1 + mg.2))

/-- Whether row `i` is the head row of one of the runs. -/
def run_head (ms : List (Nat × Nat)) (i : Nat) : Bool :=
  ms.any (fun mg => mg.1 == i)

/-- The run whose head is row `i` (meaningful when `run_head` holds). -/
def head_merge (ms : List (Nat × Nat)) (i : Nat) : Nat × Nat :=
  (ms.find? (fun mg => mg.1 == i)).getD (i, 0)

theorem foldl_bind_none (ctx : OptCtx) (ms : List (Nat × Nat)) :
    ms.foldl (fun st mg => st.bind (fun cur => apply_merge ctx cur mg)) none =
      none := by
  induction ms with
  | nil => rfl
  | cons mg rest ih => simpa [Option.bind] using ih

theorem fold_merges_char (ctx : OptCtx) (ms : List (Nat × Nat)) :
    ∀ (cur cur' : RowState),
      ms.foldl (fun st mg => st.bind (fun c => apply_merge ctx c mg))
        (some cur) = some cur' →
      (∀ mg ∈ ms, 2 ≤ mg.2 ∧ mg.1 + mg.2 ≤ cur.length) →
      List.Pairwise (fun a b => a.1 + a.2 ≤ b.1) ms →
      cur'.length = cur.length ∧
      ∀ i, i < cur.length →
        cur'.get? i =
          if run_interior ms i then some none
          else if run_head ms i then some (some (merged_rule ctx (head_merge ms i)))
          else cur.get? i := by
  induction ms with
  | nil =>
    intro cur cur' hfold hb hp
    cases hfold
    refine ⟨rfl, ?_⟩
    intro i hi
    simp [run_interior, run_head]
  | cons mg rest ih =>
    intro cur cur' hfold hb hp
    rw [List.foldl_cons] at hfold
    obtain ⟨hmg2, hmgb⟩ := hb mg (List.mem_cons_self _ _)
    -- the first application must succeed, else the fold is `none`
    rcases hok : apply_merge ctx cur mg with _ | cur1
    · rw [show (some cur).bind (fun c => apply_merge ctx c mg) = none from hok] at hfold
      rw [foldl_bind_none] at hfold
      cases hfold
    · rw [show (some cur).bind (fun c => apply_merge ctx c mg) = some cur1 from hok] at hfold
      rw [apply_merge] at hok
      split at hok
      case isFalse => cases hok
      case isTrue hokm =>
        cases hok
        set f := mg.1 with hf
        set t := mg.1 + mg.2 - 1 with ht
        have hlen1 : (delete_rows (cur.set f (some (merged_rule ctx mg))) f t).length
            = cur.length := by
          rw [delete_rows_length, List.length_set]
        have hrest := ih _ _ hfold
          (by
            intro mg' hmg'
            have := (hb mg' (List.mem_cons_of_mem _ hmg')).2
            exact ⟨(hb mg' (List.mem_cons_of_mem _ hmg')).1, by omega⟩)
          (List.pairwise_cons.mp hp).2
        have hafter : ∀ mg' ∈ rest, f + mg.2 ≤ mg'.1 :=
          fun mg' hmg' => (List.pairwise_cons.mp hp).1 mg' hmg'
        refine ⟨hrest.1.trans hlen1, ?_⟩
        intro i hi
        have hchar := hrest.2 i (by omega)
        by_cases hint : f < i ∧ i < f + mg.2
        · -- interior of the first run
          have hno_rest_int : run_interior rest i = false := by
            rw [run_interior, List.any_eq_false]
            intro mg' hmg'
            have := hafter mg' hmg'
            simp only [Bool.and_eq_true, decide_eq_true_eq]
            omega
          have hno_rest_head : run_head rest i = false := by
            rw [run_head, List.any_eq_false]
            intro mg' hmg'
            have := hafter mg' hmg'
            simp only [beq_iff_eq]
            omega
          have hcur1 : (delete_rows (cur.set f (some (merged_rule ctx mg))) f t).get? i
              = some none := by
            refine delete_rows_get_in _ f t i (by omega) (by omega) ?_
            rw [List.length_set]
            omega
          have hchar2 : cur'.get? i = some none := by
            rw [hchar, hno_rest_int, hno_rest_head, if_neg Bool.false_ne_true,
              if_neg Bool.false_ne_true]
            exact hcur1
          have hres : run_interior (mg :: rest) i = true := by
            rw [run_interior, List.any_cons]
            simp only [Bool.or_eq_true, Bool.and_eq_true, decide_eq_true_eq]
            left
            omega
          rw [hres, if_pos rfl]
          exact hchar2
        · by_cases hhead : i = f
          · -- head of the first run
            have hno_rest_int : run_interior rest i = false := by
              rw [run_interior, List.any_eq_false]
              intro mg' hmg'
              have := hafter mg' hmg'
              simp only [Bool.and_eq_true, decide_eq_true_eq]
              omega
            have hno_rest_head : run_head rest i = false := by
              rw [run_head, List.any_eq_false]
              intro mg' hmg'
              have := hafter mg' hmg'
              simp only [beq_iff_eq]
              omega
            have hcur1 : (delete_rows (cur.set f (some (merged_rule ctx mg))) f t).get? i
                = some (some (merged_rule ctx mg)) := by
              rw [delete_rows_get_out _ f t i (by omega), hhead]
              exact List.get?_set_eq_of_lt _ (by omega)
            have hres_int : run_interior (mg :: rest) i = false := by
              have h1 : (decide (mg.1 < i) && decide (i < mg.1 + mg.2)) = false := by
                rw [Bool.and_eq_false_iff]
                left
                simp only [decide_eq_false_iff_not]
                omega
              rw [run_interior, List.any_cons, h1, Bool.false_or]
              exact hno_rest_int
            have hres_head : run_head (mg :: rest) i = true := by
              rw [run_head, List.any_cons]
              simp [hhead]
            have hhm : head_merge (mg :: rest) i = mg := by
              rw [head_merge, List.find?_cons_of_pos]
              · rfl
              · simp [hhead]
            have hchar2 : cur'.get? i = some (some (merged_rule ctx mg)) := by
              rw [hchar, hno_rest_int, hno_rest_head, if_neg Bool.false_ne_true,
                if_neg Bool.false_ne_true]
              exact hcur1
            rw [hres_int, if_neg Bool.false_ne_true, hres_head, if_pos rfl, hhm]
            exact hchar2
          · -- outside the first run entirely
            have hout : (delete_rows (cur.set f (some (merged_rule ctx mg))) f t).get? i
                = cur.get? i := by
              rw [delete_rows_get_out _ f t i (by omega)]
              exact List.get?_set_ne _ cur (by omega)
            have hcond : (decide (mg.1 < i) && decide (i < mg.1 + mg.2)) = false := by
              rw [Bool.and_eq_false_iff]
              by_cases h1 : mg.1 < i
              · right
                simp only [decide_eq_false_iff_not]
                omega
              · left
                simp only [decide_eq_false_iff_not]
                omega
            have hres_int : run_interior (mg :: rest) i = run_interior rest i := by
              rw [run_interior, run_interior, List.any_cons, hcond, Bool.false_or]
            have hbeq : (mg.1 == i) = false := by
              simp only [beq_eq_false_iff_ne, ne_eq]
              omega
            have hres_head : run_head (mg :: rest) i = run_head rest i := by
              rw [run_head, run_head, List.any_cons, hbeq, Bool.false_or]
            have hhm : head_merge (mg :: rest) i = head_merge rest i := by
              rw [head_merge, head_merge, List.find?_cons_of_neg]
              simp only [hbeq, Bool.false_eq_true, not_false_iff]
            rw [hres_int, hres_head, hhm, hchar]
            split
            · rfl
            · split
              · rfl
              · exact hout

theorem filterMap_id_eq_range {α : Type} (l : List (Option α)) :
    l.filterMap id =
      (List.range l.length).filterMap (fun i => (l.get? i).getD none) := by
  induction l with
  | nil => rfl
  | cons a as ih =>
    rw [List.length_cons, List.range_succ_eq_map, List.filterMap_cons,
      List.filterMap_cons, List.filterMap_map]
    cases a with
    | none =>
      simp only [id, Option.getD_some, List.get?]
      rw [ih]
      rfl
    | some x =>
      simp only [id, Option.getD_some, List.get?]
      rw [ih]
      rfl

/-- C4: a chain abandoned by collection keeps its rules; a successfully
optimized chain's output is obtained from the input rows in index order by
deleting exactly the interior rows of the emitted merge runs and replacing
each run's head row by its merged rule — so every output rule either is an
input rule in its original relative position or is the first member of a
merge run whose other members were removed, and survivors keep their
relative order. -/
theorem chain_optimize_output_spec (rules : List Rule) :
    (∀ r, chain_optimize rules = .err r → r = rules) ∧
    (∀ out, chain_optimize rules = .ok out →
      ∃ reg, chain_collect [] rules = some reg ∧
        out = (List.range rules.length).filterMap (fun i =>
          if run_interior (chain_merges (build_ctx reg rules)) i then none
          else if run_head (chain_merges (build_ctx reg rules)) i then
            some (merged_rule (build_ctx reg rules)
              (head_merge (chain_merges (build_ctx reg rules)) i))
          else some (rules.getD i []))) := by
  constructor
  · intro r
    rw [chain_optimize]
    split
    · intro h
      cases h
      rfl
    · intro h
      split at h <;> cases h
  · intro out hok
    rw [chain_optimize] at hok
    split at hok
    case h_1 => cases hok
    case h_2 reg hreg =>
      refine ⟨reg, hreg, ?_⟩
      split at hok
      case h_1 => cases hok
      case h_2 cur' hcur' =>
        cases hok
        set ctx := build_ctx reg rules with hctx
        set ms := chain_merges ctx with hms
        have htr : ∀ a b c, rules_eq ctx a b = true → rules_eq ctx b c = true →
            rules_eq ctx a c = true := fun a b c h1 h2 => rules_eq_trans h1 h2
        have hrl : ctx.rules = rules := rfl
        have hn : ctx.rules.length = rules.length := by rw [hrl]
        have hbounds : ∀ mg ∈ ms, 2 ≤ mg.2 ∧
            mg.1 + mg.2 ≤ (ctx.rules.map some).length := by
          intro mg hmg
          obtain ⟨-, h2, h3, -, -, -⟩ :=
            scan_runs_aux_sound (rules_eq ctx) htr ctx.rules.length
              ctx.rules.length 0 mg.1 mg.2 hmg
          rw [List.length_map]
          exact ⟨h2, h3⟩
        have hsorted : List.Pairwise (fun a b => a.1 + a.2 ≤ b.1) ms :=
          scan_runs_aux_sorted (rules_eq ctx) htr ctx.rules.length
            ctx.rules.length 0
        have hchar := fold_merges_char ctx ms (ctx.rules.map some) cur'
          hcur' hbounds hsorted
        have hlen' : cur'.length = rules.length := by
          rw [hchar.1, List.length_map, hn]
        rw [filterMap_id_eq_range, hlen']
        apply List.filterMap_congr
        intro i hi
        have hilt : i < (ctx.rules.map some).length := by
          rw [List.length_map, hn]
          exact List.mem_range.mp hi
        have hgi := hchar.2 i hilt
        rw [hgi]
        split
        · rfl
        · split
          · rfl
          · rw [List.get?_map,
              get?_eq_some_getD (by rw [List.length_map] at hilt; exact hilt)]
            rfl

/-- A concrete two-rule chain with one shared selector. -/
def two_rules : List Rule :=
  [[Stmt.expression (.meta 1 0) (.value 1 "")],
   [Stmt.expression (.meta 1 0) (.value 2 "")]]

/-- The optimizer output on `two_rules`. -/
def two_out : List Rule :=
  match chain_optimize two_rules with
  | .ok o => o
  | _ => []

/-- Witness for `chain_optimize_output_spec` on the concrete chain. -/
theorem chain_optimize_output_spec_witness :
    ∃ reg, chain_collect [] two_rules = some reg ∧
      two_out = (List.range two_rules.length).filterMap (fun i =>
        if run_interior (chain_merges (build_ctx reg two_rules)) i then none
        else if run_head (chain_merges (build_ctx reg two_rules)) i then
          some (merged_rule (build_ctx reg two_rules)
            (head_merge (chain_merges (build_ctx reg two_rules)) i))
        else some (two_rules.getD i [])) :=
  (chain_optimize_output_spec two_rules).2 two_out rfl

/-! ### Reachable failures (C8, C9, C10) -/

/-- Two adjacent rules carrying only a counter statement: matrix-equal, yet
without any expression column. -/
def ctr_rules : List Rule := [[Stmt.counter], [Stmt.counter]]

/-- The context built for `ctr_rules`. -/
def ctr_ctx : OptCtx := build_ctx ((chain_collect [] ctr_rules).getD []) ctr_rules

/-- C8: the scanner emits the run `(0, 2)` for two adjacent counter-only
rules, the planner selects no participating column, and the matrix cell at
`(rule_from, stmt[0] = 0)` holds a counter statement — not an expression
statement — so the assertion at the head of `merge_stmts` fails and the pass
aborts; the claim that the assertion can never fail is wrong. -/
theorem merge_assert_failure :
    chain_merges ctr_ctx = [(0, 2)] ∧
    merge_cols ctr_ctx 0 = [] ∧
    cell_stmt ctr_ctx 0 0 = some .counter ∧
    merge_ok ctr_ctx (0, 2) = false ∧
    chain_optimize ctr_rules = .aborted :=
  ⟨rfl, rfl, rfl, rfl, rfl⟩

/-- The idempotence counterexample: two rules merge on two meta selector
columns, but the first rule carries a second, earlier statement of the first
selector's column, which survives the multi-selector rewrite; a third rule
shares the selector profile the merged head then exposes on a second pass. -/
def idem_rules : List Rule :=
  [[Stmt.counter, Stmt.expression (.meta 1 0) (.value 22 ""),
    Stmt.expression (.meta 1 0) (.value 122 ""),
    Stmt.expression (.meta 2 0) (.value 222 ""), Stmt.counter],
   [Stmt.counter, Stmt.expression (.meta 1 0) (.value 23 ""),
    Stmt.expression (.meta 1 0) (.value 123 ""),
    Stmt.expression (.meta 2 0) (.value 223 ""), Stmt.counter],
   [Stmt.counter, Stmt.expression (.meta 1 0) (.value 9 ""), Stmt.counter]]

/-- First-pass output on `idem_rules`. -/
def idem_out1 : List Rule :=
  match chain_optimize idem_rules with
  | .ok o => o
  | _ => []

/-- Second-pass output on `idem_rules`. -/
def idem_out2 : List Rule :=
  match chain_optimize idem_out1 with
  | .ok o => o
  | _ => []

/-- C9: the optimizer is not idempotent.  The first pass merges rows 0 and 1
of `idem_rules` into a concatenation rule, leaving two rules; on the second
pass the merged concatenation statement falls back to matrix column 0 and is
overwritten there by the trailing counter statement, so the merged rule and
the remaining rule become matrix-equal and merge again, leaving one rule. -/
theorem chain_optimize_not_idempotent :
    chain_optimize idem_rules = .ok idem_out1 ∧
    chain_optimize idem_out1 = .ok idem_out2 ∧
    idem_out1.length = 2 ∧
    idem_out2.length = 1 ∧
    chain_optimize idem_out1 ≠ .ok idem_out1 := by
  refine ⟨rfl, rfl, rfl, rfl, ?_⟩
  intro h
  have h2 : OptResult.ok idem_out2 = OptResult.ok idem_out1 :=
    (show chain_optimize idem_out1 = .ok idem_out2 from rfl).symm.trans h
  have h4 : idem_out2.length = idem_out1.length := by rw [OptResult.ok.inj h2]
  rw [show idem_out2.length = 1 from rfl,
    show idem_out1.length = 2 from rfl] at h4
  exact absurd h4 (by decide)

/-- A chain with a single rule holding a statement of an unsupported kind. -/
def fallback_rules : List Rule := [[Stmt.other 0]]

/-- C10: the "should not ever happen" fallback of the matrix lookup is
reachable.  An unsupported statement is cloned into the registry, but the
clone compares unequal to the statement itself, so the lookup finds no
matching key and falls back to column 0, placing the statement in a column
whose key it does not match. -/
theorem matrix_fallback_taken :
    chain_collect [] fallback_rules = some [Stmt.other 0] ∧
    stmt_find_idx (Stmt.other 0) [Stmt.other 0] 0 = none ∧
    cmd_stmt_find_in_stmt_matrix [Stmt.other 0] (Stmt.other 0) = 0 ∧
    cell_stmt (build_ctx [Stmt.other 0] fallback_rules) 0 0 =
      some (Stmt.other 0) ∧
    __stmt_type_eq (Stmt.other 0) (Stmt.other 0) = false :=
  ⟨rfl, rfl, rfl, rfl, rfl⟩

end NftOptimize
